import Mathlib

/-!
Verification development for the ota-imageserver repository (server.go,
client.go): a shallow embedding of the tar-archive diff protocol — index
generation, local scanning, bitmap packing/unpacking, and diff serving —
together with proofs of the specified properties.

Sizes are modelled as `Nat` (tar header sizes are non-negative) and bytes as
`Nat` values; counters that are `uint32` in Go are modelled as `Nat`, which
agrees with the source for every archive with fewer than 2^32 regular files.
-/

namespace OtaImage

/-- Tar header as used by the handlers: `Name`, `Typeflag` and `Size` are the
fields the code reads or writes; `rest` stands for the remaining header fields
(mode, timestamps, link target, ...), which the code never touches. -/
structure TarHeader where
  name : String
  typeflag : Char
  size : Nat
  rest : String
deriving DecidableEq

/-- A tar entry: header plus payload bytes (the tar reader yields exactly
`size` bytes of payload for a well-formed entry). -/
structure Entry where
  hdr : TarHeader
  payload : List Nat
deriving DecidableEq

/-- Default entry used with `List.getD`. -/
def dEntry : Entry := ⟨⟨"", ' ', 0, ""⟩, []⟩

/-- Well-formedness of an entry as produced by `archive/tar`: the payload has
exactly `Size` bytes. -/
abbrev wfEntry (e : Entry) : Prop := e.payload.length = e.hdr.size

/-- The condition `hdr.Typeflag == '0' && hdr.Size > 0` guarding the
regular-file branch in all three loops (server.go:93, server.go:171,
client.go:204). -/
def isReg (e : Entry) : Bool := e.hdr.typeflag == '0' && decide (0 < e.hdr.size)

/-- Number of regular-file entries (with positive size) in a list: the final
value of `regularfileindex` after the loops run over it. -/
def countReg (es : List Entry) : Nat := (es.filter isReg).length

/-- The RegularFileCounter value assigned to position `i` of an archive: the
number of regular-file entries strictly before it, matching the
post-increment `regularfileindex` threading of the loops. -/
def counterAt (es : List Entry) (i : Nat) : Nat := countReg (es.take i)

/-- The index transform of `indextarhandler` (server.go:162-201): a
regular-file entry has its size rewritten to `sha1.Size` (20) and its payload
replaced by the hash of the original payload; any other entry is written
unchanged, its payload copied only when `hdr.Size > 0`. The hash function is
a parameter standing for SHA-1. -/
def indextar (h : List Nat → List Nat) : List Entry → List Entry
  | [] => []
  | e :: es =>
    if isReg e then
      { hdr := { e.hdr with size := 20 }, payload := h e.payload } :: indextar h es
    else
      { e with payload := if 0 < e.hdr.size then e.payload else [] } :: indextar h es

/-- One step of the client's inline bitmap packing (client.go:206,262-269):
`bitindex = 7 - c % 8`; a missing entry sets that bit; the in-progress byte is
flushed whenever `bitindex == 0`; after the loop the in-progress byte is always
flushed (client.go:312-313). `c` is `regularfileindex` at the entry, `byte` the
in-progress `bitmapbyte`. -/
def packGo : List Bool → Nat → Nat → List Nat
  | [], _, byte => [byte]
  | b :: bs, c, byte =>
    let bitindex := 7 - c % 8
    let byte2 := if b then byte ||| (1 <<< bitindex) else byte
    if bitindex == 0 then byte2 :: packGo bs (c + 1) 0 else packGo bs (c + 1) byte2

/-- The full bitmap the client sends for a sequence of missing-flags, one flag
per regular-file counter value in order. -/
def packBits (seq : List Bool) : List Nat := packGo seq 0 0

/-- The server's bit read (server.go:95-106): byte `i / 8`, bit `7 - i % 8`,
`none` when the byte index is out of range. -/
def unpackBit (bm : List Nat) (i : Nat) : Option Bool :=
  match bm[i / 8]? with
  | none => none
  | some byte => some (((byte >>> (7 - i % 8)) &&& 1) == 1)

/-- The scan loop of `difftarhandler` (server.go:82-123) over the source
archive, `c` being `regularfileindex`. For a regular-file entry the code
checks `byteindex > len(requestedfilesbitmap)` (strictly greater) and calls
`log.Fatalln` on violation; when `byteindex == len` the check passes and the
access `requestedfilesbitmap[byteindex]` itself is out of range — a Go runtime
panic, modelled as a distinct error. An entry is streamed (header plus full
payload) exactly when its bit is 1. -/
def difftarGo (bm : List Nat) : List Entry → Nat → Except String (List Entry)
  | [], _ => .ok []
  | e :: es, c =>
    if isReg e then
      let byteindex := c / 8
      let bitindex := 7 - c % 8
      if byteindex > bm.length then .error "requestedfilesbitmap: out of bounds!"
      else
        match bm[byteindex]? with
        | none => .error "panic: index out of range"
        | some byte =>
          if (byte >>> bitindex) &&& 1 == 1 then
            match difftarGo bm es (c + 1) with
            | .ok out => .ok (e :: out)
            | .error msg => .error msg
          else difftarGo bm es (c + 1)
    else difftarGo bm es c

/-- Regular-file entries of an archive paired with their counter values,
starting from `c`. -/
def regCounters : List Entry → Nat → List (Entry × Nat)
  | [], _ => []
  | e :: es, c =>
    if isReg e then (e, c) :: regCounters es (c + 1) else regCounters es c

/-- Specification of the diff response, phrased from the spec's words: exactly
those regular-file entries whose bit at their counter value is 1, in traversal
order. -/
def diffSpecFrom (bm : List Nat) (es : List Entry) (c : Nat) : List Entry :=
  ((regCounters es c).filter (fun p => unpackBit bm p.2 == some true)).map Prod.fst

/-- One hex digit, as looked up in `encoding/hex`'s table
"0123456789abcdef"; `48 = '0'.toNat`, `87 + 10 = 'a'.toNat`. -/
def hexDigit (n : Nat) : Char :=
  if n < 10 then Char.ofNat (48 + n) else Char.ofNat (87 + n)

/-- Model of `hex.EncodeToString`: each byte `b` becomes the digits of
`b >> 4` and `b & 0x0f` (for byte values below 256, `b / 16 % 16 = b >> 4`;
the extra `% 16` merely totalizes the model on all of `Nat`). -/
def hexEncode : List Nat → List Char
  | [] => []
  | b :: bs => hexDigit (b / 16 % 16) :: hexDigit (b % 16) :: hexEncode bs

/-- A file of the client's reference tree as the scanner observes it:
`regular` is `Mode().IsRegular()` checked by `copyfile`; `content` its bytes;
`statOk` and `hashOk` record whether `os.Stat` on the temporary copy and
`getfilehash` succeed (client.go:237, client.go:251) — failures there only
occur through external interference with the temporary file, but the scanner
has explicit branches for both. -/
structure LocalFile where
  regular : Bool
  content : List Nat
  statOk : Bool
  hashOk : Bool
deriving DecidableEq

/-- The client's reference tree: path to file, `none` when `copyfile` fails
because the source cannot be located/opened. -/
def LocalFS : Type := String → Option LocalFile

/-- The per-entry local steps of the client scan loop (client.go:220-260) for
a regular-file index entry: build the candidate path `tgzref + hdr.Name`, copy
it (fails if absent or not a regular file), stat the copy, hash it and compare
hex strings with the index entry's embedded hash. `.ok (some ne)` is the
satisfied case with `ne` carrying the actual local size and content;
`.ok none` means the entry is missing (request from server). When `os.Stat`
fails, client.go:238-247 sets `uselocalfile = false` but then dereferences the
nil `fi` in `hdr.Size = fi.Size()` — a Go nil-pointer panic, modelled as
`.error`. -/
def scanLocal (h : List Nat → List Nat) (fs : LocalFS) (ref : String) (e : Entry) :
    Except String (Option Entry) :=
  let hashstr := hexEncode (e.payload.take 20)
  match fs (ref ++ e.hdr.name) with
  | none => .ok none
  | some f =>
    if f.regular = false then .ok none
    else if f.statOk = false then
      .error "panic: runtime error: invalid memory address or nil pointer dereference"
    else if f.hashOk = false then .ok none
    else if hexEncode (h f.content) ≠ hashstr then .ok none
    else .ok (some { hdr := { e.hdr with size := f.content.length }, payload := f.content })

/-- The client scan loop (client.go:193-310) over the downloaded index.
Returns the output-archive entries written, the missing-flag of each
regular-file entry in counter order (bit value recorded at client.go:262-265;
the byte-packing of those flags is `packBits`, modelling client.go:266-269 and
312-313), and the final `missingfiles` count. A regular entry whose payload
holds fewer than `sha1.Size` (20) bytes aborts with `os.Exit(3)`
(client.go:212-216). Non-regular entries are copied unchanged, their payload
only when `hdr.Size > 0` (client.go:299-308). -/
def scanGo (h : List Nat → List Nat) (fs : LocalFS) (ref : String) :
    List Entry → Except String (List Entry × List Bool × Nat)
  | [] => .ok ([], [], 0)
  | e :: es =>
    if isReg e then
      if e.payload.length < 20 then
        .error "Server responded with an unknown file hash format!"
      else
        match scanLocal h fs ref e with
        | .error msg => .error msg
        | .ok none =>
          match scanGo h fs ref es with
          | .ok (out, bits, m) => .ok (out, true :: bits, m + 1)
          | .error msg => .error msg
        | .ok (some ne) =>
          match scanGo h fs ref es with
          | .ok (out, bits, m) => .ok (ne :: out, false :: bits, m)
          | .error msg => .error msg
    else
      match scanGo h fs ref es with
      | .ok (out, bits, m) =>
        .ok ({ e with payload := if 0 < e.hdr.size then e.payload else [] } :: out, bits, m)
      | .error msg => .error msg

/-- An HTTP response as far as the claims observe it: status code and the
first body text written. -/
structure HttpResp where
  status : Nat
  body : String
deriving DecidableEq

/-- Early-return responses of `indextarhandler` (server.go:141-153):
`os.Open` failure yields status 404 with body "404 - File not found!";
`gzip.NewReader` failure yields `w.WriteHeader(http.StatusNotFound)` — status
404 — with body "500 - cannot read tgz file!". `none` means the handler
proceeds to stream the index (implicit status 200 on first write). -/
def indextarEarly (openOk : Bool) (gzipOk : Bool) : Option HttpResp :=
  if openOk = false then some ⟨404, "404 - File not found!"⟩
  else if gzipOk = false then some ⟨404, "500 - cannot read tgz file!"⟩
  else none

/-- Early-return responses of `difftarhandler` (server.go:52-73): a failure
reading the request bitmap yields status 500; `os.Open` failure yields 404;
`gzip.NewReader` failure on the archive yields `StatusNotFound` — 404 — with
body "500 - cannot read tgz file!". -/
def difftarEarly (bitmapOk : Bool) (openOk : Bool) (gzipOk : Bool) : Option HttpResp :=
  if bitmapOk = false then some ⟨500, "500 - Cannot read request bitmap!"⟩
  else if openOk = false then some ⟨404, "404 - File not found!"⟩
  else if gzipOk = false then some ⟨404, "500 - cannot read tgz file!"⟩
  else none

/-- Index of the last '/' in a path, modelling `strings.LastIndex(p, "/")`
(`none` for Go's `-1`). Paths are byte strings; '/' is a single byte, so a
character list model is exact. -/
def lastIndexOf : List Char → Option Nat
  | [] => none
  | ch :: cs =>
    match lastIndexOf cs with
    | some i => some (i + 1)
    | none => if ch = '/' then some 0 else none

/-- The slice `p[strings.LastIndex(p, "/")+1:]`: everything after the last
'/', or the whole string when there is none (`-1 + 1 = 0`). -/
def afterLastSlash (p : List Char) : List Char :=
  match lastIndexOf p with
  | none => p
  | some i => p.drop (i + 1)

/-- Resolution of the served archive file from the request URL path, as done
identically by both handlers (server.go:41 and server.go:135):
`tarfolder + r.URL.Path[strings.LastIndex(r.URL.Path, "/")+1:]`. -/
def resolveArchive (root p : List Char) : List Char := root ++ afterLastSlash p

/-- A sample regular-file entry (content "AAAA") used by concrete witnesses. -/
def sampleEntry : Entry := ⟨⟨"a/x", '0', 4, ""⟩, [65, 65, 65, 65]⟩

/-- A sample directory entry used by concrete witnesses. -/
def sampleDir : Entry := ⟨⟨"a/", '5', 0, ""⟩, []⟩

/-- A stand-in content-hash function of fixed output length 20, used by
concrete witnesses in place of SHA-1. -/
def sampleHash (_ : List Nat) : List Nat := List.replicate 20 0

/-- A sample index entry: size 20, payload equal to `sampleHash` of anything. -/
def indexEntry20 : Entry := ⟨⟨"a/x", '0', 20, ""⟩, List.replicate 20 0⟩

/-- A sample local file that satisfies `indexEntry20` under `sampleHash`. -/
def sampleFile : LocalFile := ⟨true, [65, 65, 65, 65], true, true⟩

/-- A local file whose temporary copy cannot be stat-ed (external interference
between `copyfile` and `os.Stat`). -/
def statFailFile : LocalFile := ⟨true, [65], false, true⟩

/-- A reference tree holding `sampleFile` at every path. -/
def sampleFS : LocalFS := fun _ => some sampleFile

/-- A reference tree holding `statFailFile` at every path. -/
def statFailFS : LocalFS := fun _ => some statFailFile


/-! Bitmap codec lemmas -/

theorem bitget_eq (b k : Nat) : (((b >>> k) &&& 1) == 1) = b.testBit k := by
  rcases Nat.mod_two_eq_zero_or_one (b >>> k) with h | h <;>
    simp [Nat.testBit, Nat.and_one_is_mod, Nat.and_comm 1, h]

theorem unpackBit_cons_eight (x : Nat) (l : List Nat) (p : Nat) :
    unpackBit (x :: l) (8 + p) = unpackBit l p := by
  unfold unpackBit
  have h1 : (8 + p) / 8 = p / 8 + 1 := by omega
  have h2 : (8 + p) % 8 = p % 8 := by omega
  rw [h1, h2, List.getElem?_cons_succ]

theorem packGo_spec (bs : List Bool) : ∀ c byte : Nat,
    (∀ k, k < 8 - c % 8 → byte.testBit k = false) →
    (∃ low rest, packGo bs c byte = (byte ||| low) :: rest ∧ low < 2 ^ (8 - c % 8)) ∧
    (∀ j, j < bs.length → unpackBit (packGo bs c byte) (c % 8 + j) = some (bs.getD j false)) := by
  induction bs with
  | nil =>
    intro c byte hinv
    refine ⟨⟨0, [], by simp [packGo], Nat.pos_pow_of_pos _ (by norm_num)⟩, ?_⟩
    intro j hj
    exact absurd hj (by simp)
  | cons b bs ih =>
    intro c byte hinv
    have hm : c % 8 < 8 := Nat.mod_lt _ (by norm_num)
    by_cases h7 : c % 8 = 7
    · have hsucc : (c + 1) % 8 = 0 := by omega
      have hunf : packGo (b :: bs) c byte
          = (if b then byte ||| 1 else byte) :: packGo bs (c + 1) 0 := by
        simp [packGo, h7]
      obtain ⟨hex, hup⟩ := ih (c + 1) 0 (by intro k hk; exact Nat.zero_testBit k)
      refine ⟨⟨if b then 1 else 0, packGo bs (c + 1) 0, ?_, ?_⟩, ?_⟩
      · rw [hunf]; cases b <;> simp
      · rw [h7]; cases b <;> norm_num
      · intro j hj
        rw [h7, hunf]
        match j with
        | 0 =>
          have hb0 : (if b then byte ||| 1 else byte).testBit 0 = b := by
            cases b <;> simp [Nat.testBit_or, hinv 0 (by omega)]
          have hdiv : (7 + 0) / 8 = 0 := by norm_num
          have hmod : 7 - (7 + 0) % 8 = 0 := by norm_num
          simp only [unpackBit, hdiv, List.getElem?_cons_zero, hmod]
          rw [bitget_eq, hb0]
          simp [List.getD]
        | j' + 1 =>
          have h8 : 7 + (j' + 1) = 8 + j' := by omega
          rw [h8, unpackBit_cons_eight]
          have := hup j' (by simpa using hj)
          rw [hsucc] at this
          simpa using this
    · have hm7 : c % 8 < 7 := by omega
      have hsucc : (c + 1) % 8 = c % 8 + 1 := by omega
      have hne : (7 - c % 8) ≠ 0 := by omega
      have hunf : packGo (b :: bs) c byte
          = packGo bs (c + 1) (if b then byte ||| (1 <<< (7 - c % 8)) else byte) := by
        simp only [packGo]
        rw [if_neg (by simpa using hne)]
      set byte2 := if b then byte ||| (1 <<< (7 - c % 8)) else byte with hbyte2
      have hinv2 : ∀ k, k < 8 - (c + 1) % 8 → byte2.testBit k = false := by
        intro k hk
        rw [hsucc] at hk
        have hkk : k < 7 - c % 8 := by omega
        cases b <;> simp only [hbyte2, if_pos, if_neg, Bool.false_eq_true, ite_false, ite_true]
        · exact hinv k (by omega)
        · rw [Nat.testBit_or, hinv k (by omega), Nat.one_shiftLeft,
            Nat.testBit_two_pow_of_ne (by omega)]
          rfl
      obtain ⟨⟨low2, rest2, hE, hlow2⟩, hup⟩ := ih (c + 1) byte2 hinv2
      have hexp : 8 - (c + 1) % 8 = 7 - c % 8 := by omega
      rw [hexp] at hlow2
      have hpowlt : (2:Nat) ^ (7 - c % 8) < 2 ^ (8 - c % 8) := by
        have h1 : 8 - c % 8 = (7 - c % 8) + 1 := by omega
        rw [h1, Nat.pow_succ]
        have h2 : 0 < (2:Nat) ^ (7 - c % 8) := Nat.pos_pow_of_pos _ (by norm_num)
        omega
      refine ⟨⟨(if b then 1 <<< (7 - c % 8) else 0) ||| low2, rest2, ?_, ?_⟩, ?_⟩
      · rw [hunf, hE]
        cases b <;> simp [hbyte2, ← Nat.or_assoc]
      · apply Nat.or_lt_two_pow
        · cases b
          · show (0:Nat) < 2 ^ (8 - c % 8)
            exact Nat.pos_pow_of_pos (8 - c % 8) (by norm_num)
          · simpa [Nat.one_shiftLeft] using hpowlt
        · exact lt_trans hlow2 hpowlt
      · intro j hj
        match j with
        | 0 =>
          rw [hunf, hE]
          have hdiv : (c % 8 + 0) / 8 = 0 := by omega
          have hmod : (c % 8 + 0) % 8 = c % 8 := by omega
          simp only [unpackBit, hdiv, hmod, List.getElem?_cons_zero]
          rw [bitget_eq]
          have hlow2' : low2.testBit (7 - c % 8) = false :=
            Nat.testBit_lt_two_pow hlow2
          have hbyte2t : byte2.testBit (7 - c % 8) = b := by
            cases b <;> simp only [hbyte2, ite_true, ite_false]
            · exact hinv _ (by omega)
            · rw [Nat.testBit_or, hinv _ (by omega), Nat.one_shiftLeft,
                Nat.testBit_two_pow_self]
              rfl
          rw [Nat.testBit_or, hbyte2t, hlow2']
          simp [List.getD]
        | j' + 1 =>
          rw [hunf]
          have harr : c % 8 + (j' + 1) = (c + 1) % 8 + j' := by omega
          rw [harr]
          have := hup j' (by simpa using hj)
          simpa using this

theorem packGo_length (bs : List Bool) : ∀ c byte : Nat,
    (packGo bs c byte).length = (c % 8 + bs.length) / 8 + 1 := by
  induction bs with
  | nil =>
    intro c byte
    simp only [packGo, List.length_singleton, List.length_nil]
    omega
  | cons b bs ih =>
    intro c byte
    by_cases h7 : c % 8 = 7
    · have hsucc : (c + 1) % 8 = 0 := by omega
      have hunf : packGo (b :: bs) c byte
          = (if b then byte ||| 1 else byte) :: packGo bs (c + 1) 0 := by
        simp [packGo, h7]
      rw [hunf]
      simp only [List.length_cons, ih, hsucc]
      omega
    · have hne : (7 - c % 8) ≠ 0 := by omega
      have hsucc : (c + 1) % 8 = c % 8 + 1 := by omega
      have hunf : packGo (b :: bs) c byte
          = packGo bs (c + 1) (if b then byte ||| (1 <<< (7 - c % 8)) else byte) := by
        simp only [packGo]
        rw [if_neg (by simpa using hne)]
      rw [hunf, ih, hsucc]
      simp only [List.length_cons]
      omega

theorem packGo_ne_nil (bs : List Bool) : ∀ c byte : Nat, packGo bs c byte ≠ [] := by
  induction bs with
  | nil => intro c byte; simp [packGo]
  | cons b bs ih =>
    intro c byte
    simp only [packGo]
    split
    · simp
    · apply ih

theorem getLast?_cons_getD (x : Nat) (l : List Nat) (d : Nat) (h : l ≠ []) :
    (x :: l).getLast?.getD d = l.getLast?.getD d := by
  cases l with
  | nil => exact absurd rfl h
  | cons y t => rw [List.getLast?_cons_cons]

theorem packGo_getLast (bs : List Bool) : ∀ c byte : Nat,
    (∀ k, k < 8 - c % 8 → byte.testBit k = false) →
    ∀ k, k < 8 - (c + bs.length) % 8 →
      ((packGo bs c byte).getLast?.getD 1).testBit k = false := by
  induction bs with
  | nil =>
    intro c byte hinv k hk
    simp only [List.length_nil, Nat.add_zero] at hk
    simp only [packGo, List.getLast?_singleton, Option.getD_some]
    exact hinv k (by omega)
  | cons b bs ih =>
    intro c byte hinv k hk
    simp only [List.length_cons] at hk
    by_cases h7 : c % 8 = 7
    · have hunf : packGo (b :: bs) c byte
          = (if b then byte ||| 1 else byte) :: packGo bs (c + 1) 0 := by
        simp [packGo, h7]
      rw [hunf, getLast?_cons_getD _ _ _ (packGo_ne_nil bs (c + 1) 0)]
      exact ih (c + 1) 0 (fun k _ => Nat.zero_testBit k) k (by omega)
    · have hne : (7 - c % 8) ≠ 0 := by omega
      have hsucc : (c + 1) % 8 = c % 8 + 1 := by omega
      have hunf : packGo (b :: bs) c byte
          = packGo bs (c + 1) (if b then byte ||| (1 <<< (7 - c % 8)) else byte) := by
        simp only [packGo]
        rw [if_neg (by simpa using hne)]
      rw [hunf]
      have hinv2 : ∀ k, k < 8 - (c + 1) % 8 →
          (if b then byte ||| (1 <<< (7 - c % 8)) else byte).testBit k = false := by
        intro k hk2
        rw [hsucc] at hk2
        cases b
        · show byte.testBit k = false
          exact hinv k (by omega)
        · show (byte ||| (1 <<< (7 - c % 8))).testBit k = false
          rw [Nat.testBit_or, hinv k (by omega), Nat.one_shiftLeft,
            Nat.testBit_two_pow_of_ne (by omega)]
          rfl
      exact ih (c + 1) _ hinv2 k (by omega)

/-- C2: for every sequence of booleans and every position `i` in range,
reading bit `i` of the packed bitmap — byte `i / 8`, bit `7 - i % 8`,
MSB-first, exactly as `difftarhandler` reads it — returns the `i`-th boolean
of the sequence: the client's packing and the server's unpacking agree on the
layout. -/
theorem C2_bitmap_roundtrip (seq : List Bool) (i : Nat) (hi : i < seq.length) :
    unpackBit (packBits seq) i = some (seq.getD i false) := by
  have h := (packGo_spec seq 0 0 (fun k _ => Nat.zero_testBit k)).2 i hi
  simpa [packBits] using h

/-- Witness for C2 at a concrete sequence and position. -/
theorem C2_bitmap_roundtrip_witness :
    unpackBit (packBits [true, false, true]) 2 = some true :=
  C2_bitmap_roundtrip [true, false, true] 2 (by decide)

/-- C8 counterexample: for 8 booleans the claim predicts exactly
`ceil(8/8) = 1` byte, but the client flushes the in-progress byte at
`bitindex == 0` (client.go:266-269) and then always appends the current byte
after the loop (client.go:312-313), producing 2 bytes. -/
theorem C8_counterexample : ¬ (packBits (List.replicate 8 true)).length = 1 := by
  decide

/-- C8 amended: the packed bitmap has exactly `⌊N/8⌋ + 1` bytes — equal to
`ceil(N/8)` when `N` is not a multiple of 8, and one extra trailing all-zero
byte when it is (in particular `N = 0` yields one all-zero byte) — and the
final byte is flushed with its unused low-order bits zero. -/
theorem C8_pack_length_amended (seq : List Bool) :
    (packBits seq).length = seq.length / 8 + 1 ∧
    (∀ k, k < 8 - seq.length % 8 →
      ((packBits seq).getLast?.getD 1).testBit k = false) := by
  constructor
  · have h := packGo_length seq 0 0
    simpa [packBits] using h
  · intro k hk
    exact packGo_getLast seq 0 0 (fun k _ => Nat.zero_testBit k) k (by simpa using hk)

/-- Witness for the amended C8 at a concrete sequence. -/
theorem C8_pack_length_amended_witness :
    (packBits [true]).length = 1 / 8 + 1 ∧
    ((packBits [true]).getLast?.getD 1).testBit 3 = false :=
  ⟨(C8_pack_length_amended [true]).1, (C8_pack_length_amended [true]).2 3 (by decide)⟩


/-! Path resolution (C10) -/

theorem lastIndexOf_none_no_slash : ∀ p : List Char, lastIndexOf p = none → '/' ∉ p := by
  intro p
  induction p with
  | nil => intro _ h; exact absurd h (List.not_mem_nil _)
  | cons ch cs ih =>
    intro hL
    simp only [lastIndexOf] at hL
    cases hcs : lastIndexOf cs with
    | some i => rw [hcs] at hL; exact absurd hL (by simp)
    | none =>
      rw [hcs] at hL
      by_cases hc : ch = '/'
      · rw [if_pos hc] at hL; exact absurd hL (by simp)
      · rw [if_neg hc] at hL
        intro hmem
        rcases List.mem_cons.mp hmem with h | h
        · exact hc h.symm
        · exact ih hcs h

theorem afterLastSlash_no_slash : ∀ p : List Char, '/' ∉ afterLastSlash p := by
  intro p
  induction p with
  | nil => simp [afterLastSlash, lastIndexOf]
  | cons ch cs ih =>
    by_cases hcs : ∃ i, lastIndexOf cs = some i
    · obtain ⟨i, hi⟩ := hcs
      have hL : lastIndexOf (ch :: cs) = some (i + 1) := by
        simp [lastIndexOf, hi]
      simp only [afterLastSlash, hL, List.drop_succ_cons]
      simpa [afterLastSlash, hi] using ih
    · have hnone : lastIndexOf cs = none := by
        cases h : lastIndexOf cs with
        | none => rfl
        | some i => exact absurd ⟨i, h⟩ hcs
      by_cases hc : ch = '/'
      · have hL : lastIndexOf (ch :: cs) = some 0 := by
          simp [lastIndexOf, hnone, hc]
        simp only [afterLastSlash, hL, Nat.zero_add, List.drop_succ_cons, List.drop_zero]
        exact lastIndexOf_none_no_slash cs hnone
      · have hL : lastIndexOf (ch :: cs) = none := by
          simp [lastIndexOf, hnone, hc]
        simp only [afterLastSlash, hL]
        intro hmem
        rcases List.mem_cons.mp hmem with h | h
        · exact hc h.symm
        · exact lastIndexOf_none_no_slash cs hnone h

/-- C10: both handlers resolve the served file as the fixed archive root
followed by the substring of the URL path after its last '/': the resolved
path lies directly in the root (its final segment contains no '/'), and any
two request paths with the same final segment resolve to the same file. -/
theorem C10_resolve_last_segment (root p : List Char) :
    resolveArchive root p = root ++ afterLastSlash p ∧
    '/' ∉ afterLastSlash p ∧
    ∀ q, afterLastSlash q = afterLastSlash p →
      resolveArchive root q = resolveArchive root p := by
  refine ⟨rfl, afterLastSlash_no_slash p, ?_⟩
  intro q hq
  simp [resolveArchive, hq]

/-- Witness for C10 at concrete paths: "/a/b" and "/x/b" resolve identically
under root "/tmp/". -/
theorem C10_resolve_last_segment_witness :
    resolveArchive ['/', 't', 'm', 'p', '/'] ['/', 'x', '/', 'b']
      = resolveArchive ['/', 't', 'm', 'p', '/'] ['/', 'a', '/', 'b'] :=
  (C10_resolve_last_segment ['/', 't', 'm', 'p', '/'] ['/', 'a', '/', 'b']).2.2
    ['/', 'x', '/', 'b'] (by decide)

/-! Handler status codes (C9) -/

/-- C6 evaluation at the failing input: a regular-file index entry whose local
candidate copies successfully but whose temporary copy cannot be stat-ed makes
the scanner dereference a nil `os.FileInfo` (client.go:247) and panic, instead
of recording bit 1 and continuing as the claim states. -/
theorem C6_stat_failure_panics :
    scanGo sampleHash statFailFS "/" [indexEntry20] =
      .error "panic: runtime error: invalid memory address or nil pointer dereference" := by
  rfl

/-- C9 evaluation: for an archive that exists but is not valid gzip, both
handlers respond with HTTP status 404 — not 500 as claimed — while printing a
body that itself says "500", and 404 is therefore not reserved for the absent
file. -/
theorem C9_invalid_archive_status :
    indextarEarly true false = some ⟨404, "500 - cannot read tgz file!"⟩ ∧
    difftarEarly true true false = some ⟨404, "500 - cannot read tgz file!"⟩ ∧
    (404 : Nat) ≠ 500 :=
  ⟨rfl, rfl, by decide⟩

/-! Diff serving bounds (C7) -/

/-- C7 counterexample: with one regular file and an empty bitmap the needed
byte index 0 equals the bitmap length, which the claim says is treated as a
bounds violation; the code's check `byteindex > len` passes and the access
`requestedfilesbitmap[byteindex]` at index equal to the length is executed,
failing as a runtime out-of-range panic, not through the bounds-violation
branch. -/
theorem C7_counterexample :
    difftarGo [] [sampleEntry] 0 = .error "panic: index out of range" ∧
    "panic: index out of range" ≠ "requestedfilesbitmap: out of bounds!" :=
  ⟨rfl, by decide⟩


/-! Counter determinism (C1) -/

theorem countReg_cons (e : Entry) (es : List Entry) :
    countReg (e :: es) = (if isReg e then 1 else 0) + countReg es := by
  by_cases hr : isReg e
  · simp [countReg, List.filter_cons, hr]
    omega
  · simp [countReg, List.filter_cons, hr]

theorem indextar_cons (h : List Nat → List Nat) (e : Entry) (es : List Entry) :
    indextar h (e :: es) =
      (if isReg e then { hdr := { e.hdr with size := 20 }, payload := h e.payload }
       else { e with payload := if 0 < e.hdr.size then e.payload else [] })
        :: indextar h es := by
  by_cases hr : isReg e <;> simp [indextar, hr]

theorem isReg_indextar_head (h : List Nat → List Nat) (e : Entry) :
    isReg (if isReg e then { hdr := { e.hdr with size := 20 }, payload := h e.payload }
           else { e with payload := if 0 < e.hdr.size then e.payload else [] })
      = isReg e := by
  by_cases hr : isReg e
  · rw [if_pos hr]
    have hr2 : e.hdr.typeflag = '0' ∧ 0 < e.hdr.size := by
      simpa [isReg] using hr
    simp [isReg, hr2.1, hr2.2]
  · rw [if_neg hr]
    rfl

theorem indextar_length (h : List Nat → List Nat) (es : List Entry) :
    (indextar h es).length = es.length := by
  induction es with
  | nil => rfl
  | cons e es ih => rw [indextar_cons]; simp [ih]

theorem isReg_indextar_getD (h : List Nat → List Nat) (es : List Entry) :
    ∀ i, isReg ((indextar h es).getD i dEntry) = isReg (es.getD i dEntry) := by
  induction es with
  | nil => intro i; simp [indextar]
  | cons e es ih =>
    intro i
    rw [indextar_cons]
    cases i with
    | zero => simpa using isReg_indextar_head h e
    | succ n => simpa using ih n

theorem counterAt_indextar (h : List Nat → List Nat) (es : List Entry) :
    ∀ i, counterAt (indextar h es) i = counterAt es i := by
  induction es with
  | nil => intro i; simp [indextar]
  | cons e es ih =>
    intro i
    rw [indextar_cons]
    cases i with
    | zero => simp [counterAt]
    | succ n =>
      simp only [counterAt, List.take_succ_cons, countReg_cons, isReg_indextar_head]
      have := ih n
      simp only [counterAt] at this
      rw [this]

/-- C1: the RegularFileCounter is derived identically in all three phases.
The index transform preserves length, and position by position it preserves
the regular-file test `Typeflag == '0' && Size > 0` that all three loops use,
so the counter value assigned after any prefix — the number of regular files
before that position — is the same whether derived from the source archive
(index generation and diff serving re-walk it) or from the index (the client
scans it): the client and the server assign the same counter value to the
same regular file. -/
theorem C1_counter_determinism (h : List Nat → List Nat) (es : List Entry) (i : Nat) :
    (indextar h es).length = es.length ∧
    isReg ((indextar h es).getD i dEntry) = isReg (es.getD i dEntry) ∧
    counterAt (indextar h es) i = counterAt es i :=
  ⟨indextar_length h es, isReg_indextar_getD h es i, counterAt_indextar h es i⟩


/-! Diff serving (C3, C7 amended) -/

theorem difftarGo_cons_reg (bm : List Nat) (e : Entry) (es : List Entry) (c : Nat)
    (hr : isReg e = true) :
    difftarGo bm (e :: es) c =
      if c / 8 > bm.length then .error "requestedfilesbitmap: out of bounds!"
      else
        match bm[c / 8]? with
        | none => .error "panic: index out of range"
        | some byte =>
          if (byte >>> (7 - c % 8)) &&& 1 == 1 then
            match difftarGo bm es (c + 1) with
            | .ok out => .ok (e :: out)
            | .error msg => .error msg
          else difftarGo bm es (c + 1) := by
  simp [difftarGo, hr]

theorem difftarGo_cons_nonreg (bm : List Nat) (e : Entry) (es : List Entry) (c : Nat)
    (hr : ¬ isReg e = true) :
    difftarGo bm (e :: es) c = difftarGo bm es c := by
  simp [difftarGo, hr]

theorem difftarGo_cons_reg_some (bm : List Nat) (e : Entry) (es : List Entry)
    (c byte : Nat) (hr : isReg e = true) (hb : ¬ c / 8 > bm.length)
    (hby : bm[c / 8]? = some byte) :
    difftarGo bm (e :: es) c =
      if (byte >>> (7 - c % 8)) &&& 1 == 1 then
        match difftarGo bm es (c + 1) with
        | .ok out => .ok (e :: out)
        | .error msg => .error msg
      else difftarGo bm es (c + 1) := by
  rw [difftarGo_cons_reg bm e es c hr, if_neg hb, hby]

theorem difftarGo_ok (bm : List Nat) (es : List Entry) :
    ∀ c out, difftarGo bm es c = .ok out → out = diffSpecFrom bm es c := by
  induction es with
  | nil =>
    intro c out h
    simp only [difftarGo] at h
    simp only [Except.ok.injEq] at h
    simp [← h, diffSpecFrom, regCounters]
  | cons e es ih =>
    intro c out h
    by_cases hr : isReg e
    · by_cases hb : c / 8 > bm.length
      · rw [difftarGo_cons_reg bm e es c hr, if_pos hb] at h
        exact absurd h (by simp)
      · cases hby : bm[c / 8]? with
        | none =>
          rw [difftarGo_cons_reg bm e es c hr, if_neg hb, hby] at h
          exact absurd h (by simp)
        | some byte =>
          rw [difftarGo_cons_reg_some bm e es c byte hr hb hby] at h
          have hup : unpackBit bm c = some (((byte >>> (7 - c % 8)) &&& 1) == 1) := by
            simp [unpackBit, hby]
          by_cases hbit : (((byte >>> (7 - c % 8)) &&& 1) == 1) = true
          · rw [if_pos hbit] at h
            cases hrec : difftarGo bm es (c + 1) with
            | ok out2 =>
              rw [hrec] at h
              simp only [Except.ok.injEq] at h
              rw [← h, ih (c + 1) out2 hrec]
              have hbit2 : byte >>> (7 - c % 8) % 2 = 1 := by
                simpa [Nat.and_one_is_mod] using hbit
              simp [diffSpecFrom, regCounters, hr, List.filter_cons, hup, hbit, hbit2]
            | error msg =>
              rw [hrec] at h
              exact absurd h (by simp)
          · rw [if_neg hbit] at h
            rw [ih (c + 1) out h]
            simp only [Bool.not_eq_true] at hbit
            have hbit2 : ¬ byte >>> (7 - c % 8) % 2 = 1 := by
              simpa [Nat.and_one_is_mod] using hbit
            simp [diffSpecFrom, regCounters, hr, List.filter_cons, hup, hbit, hbit2]
    · rw [difftarGo_cons_nonreg bm e es c hr] at h
      rw [ih c out h]
      simp [diffSpecFrom, regCounters, hr]

/-- C3: whenever the diff handler's scan completes and produces a response,
that response consists of exactly those regular-file entries (Typeflag '0',
positive size) whose bitmap bit at their counter value is 1, each included
with its full header and payload, in archive traversal order; entries with
bit 0 are omitted and non-regular entries never appear. -/
theorem C3_diff_response_exact (bm : List Nat) (es : List Entry) (out : List Entry)
    (hok : difftarGo bm es 0 = .ok out) : out = diffSpecFrom bm es 0 :=
  difftarGo_ok bm es 0 out hok

/-- Witness for C3: a directory, a requested file (bit 1) and an unrequested
file (bit 0) under bitmap byte 0b10000000. -/
theorem C3_diff_response_exact_witness :
    ([sampleEntry] : List Entry)
      = diffSpecFrom [128] [sampleDir, sampleEntry, indexEntry20] 0 :=
  C3_diff_response_exact [128] [sampleDir, sampleEntry, indexEntry20] [sampleEntry] rfl

theorem difftarGo_ok_bounds (bm : List Nat) (es : List Entry) :
    ∀ c0 out, difftarGo bm es c0 = .ok out →
      ∀ j, j < countReg es → (c0 + j) / 8 < bm.length := by
  induction es with
  | nil =>
    intro c0 out _ j hj
    simp [countReg] at hj
  | cons e es ih =>
    intro c0 out h j hj
    by_cases hr : isReg e
    · by_cases hb : c0 / 8 > bm.length
      · rw [difftarGo_cons_reg bm e es c0 hr, if_pos hb] at h
        exact absurd h (by simp)
      · cases hby : bm[c0 / 8]? with
        | none =>
          rw [difftarGo_cons_reg bm e es c0 hr, if_neg hb, hby] at h
          exact absurd h (by simp)
        | some byte =>
          rw [difftarGo_cons_reg_some bm e es c0 byte hr hb hby] at h
          have hlt : c0 / 8 < bm.length := by
            by_contra hge
            rw [List.getElem?_eq_none (by omega)] at hby
            exact Option.noConfusion hby
          cases j with
          | zero => simpa using hlt
          | succ n =>
            have hn : n < countReg es := by
              rw [countReg_cons, if_pos hr] at hj
              omega
            have harr : c0 + (n + 1) = (c0 + 1) + n := by omega
            rw [harr]
            by_cases hbit : (((byte >>> (7 - c0 % 8)) &&& 1) == 1) = true
            · rw [if_pos hbit] at h
              cases hrec : difftarGo bm es (c0 + 1) with
              | ok out2 => exact ih (c0 + 1) out2 hrec n hn
              | error msg =>
                rw [hrec] at h
                exact absurd h (by simp)
            · rw [if_neg hbit] at h
              exact ih (c0 + 1) out h n hn
    · rw [difftarGo_cons_nonreg bm e es c0 hr] at h
      have hj2 : j < countReg es := by
        rw [countReg_cons, if_neg hr] at hj
        omega
      exact ih c0 out h j hj2

/-- C7 amended: the diff handler fails whenever a needed byte index reaches or
exceeds the bitmap length — equivalently, a successfully produced response
implies every regular-file counter's byte index was strictly within bounds, so
no out-of-range bit is ever silently read as zero. However, only
`byteindex > length` takes the explicit bounds-violation branch; at
`byteindex = length` the code itself performs the out-of-range access
`requestedfilesbitmap[byteindex]` and dies of the resulting runtime panic
rather than through the bounds check. -/
theorem C7_bounds_amended (bm : List Nat) (es : List Entry) (out : List Entry)
    (hok : difftarGo bm es 0 = .ok out) :
    ∀ c, c < countReg es → c / 8 < bm.length := by
  intro c hc
  simpa using difftarGo_ok_bounds bm es 0 out hok c hc

/-- Witness for the amended C7 at a concrete archive and bitmap. -/
theorem C7_bounds_amended_witness : (0 : Nat) / 8 < ([0] : List Nat).length :=
  C7_bounds_amended [0] [sampleEntry] [] rfl 0 (by decide)


/-! Index builder (C4) -/

theorem nonreg_unchanged (e : Entry) (hw : wfEntry e) :
    ({ e with payload := if 0 < e.hdr.size then e.payload else [] } : Entry) = e := by
  by_cases h0 : 0 < e.hdr.size
  · simp [h0]
  · have hp : e.payload = [] := List.length_eq_zero.mp (by omega)
    rw [if_neg h0, ← hp]

theorem indextar_getD (h : List Nat → List Nat) (hh : ∀ b, (h b).length = 20) :
    ∀ es : List Entry, (∀ e ∈ es, wfEntry e) → ∀ i, i < es.length →
      (isReg (es.getD i dEntry) = true →
        (indextar h es).getD i dEntry =
          { hdr := { (es.getD i dEntry).hdr with size := 20 },
            payload := h ((es.getD i dEntry).payload) } ∧
        ((indextar h es).getD i dEntry).payload.length = 20) ∧
      (isReg (es.getD i dEntry) = false →
        (indextar h es).getD i dEntry = es.getD i dEntry) := by
  intro es
  induction es with
  | nil =>
    intro _ i hi
    simp at hi
  | cons e es ih =>
    intro hw i hi
    rw [indextar_cons]
    cases i with
    | zero =>
      simp only [List.getD_cons_zero]
      by_cases hr : isReg e
      · rw [if_pos hr]
        refine ⟨fun _ => ⟨rfl, hh e.payload⟩, fun hfalse => ?_⟩
        rw [hr] at hfalse
        exact absurd hfalse (by simp)
      · rw [if_neg hr]
        refine ⟨fun htrue => absurd htrue hr, fun _ => ?_⟩
        exact nonreg_unchanged e (hw e (by simp))
    | succ n =>
      simp only [List.getD_cons_succ]
      exact ih (fun e2 he2 => hw e2 (by simp [he2])) n (by simpa using hi)

/-- C4: the index has the same entry count and order as the input; each
regular-file entry keeps its name and metadata but has size rewritten to the
hash length 20 and payload replaced by the 20-byte hash of its original
payload; every other entry is emitted unchanged, its payload copied verbatim.
`hh` states that the hash function produces 20-byte digests, as SHA-1 does. -/
theorem C4_index_transform (h : List Nat → List Nat) (es : List Entry)
    (hw : ∀ e ∈ es, wfEntry e) (hh : ∀ b, (h b).length = 20) :
    (indextar h es).length = es.length ∧
    ∀ i, i < es.length →
      (isReg (es.getD i dEntry) = true →
        (indextar h es).getD i dEntry =
          { hdr := { (es.getD i dEntry).hdr with size := 20 },
            payload := h ((es.getD i dEntry).payload) } ∧
        ((indextar h es).getD i dEntry).payload.length = 20) ∧
      (isReg (es.getD i dEntry) = false →
        (indextar h es).getD i dEntry = es.getD i dEntry) :=
  ⟨indextar_length h es, indextar_getD h hh es hw⟩

/-- Witness for C4 on a directory followed by a regular file. -/
theorem C4_index_transform_witness :
    (indextar sampleHash [sampleDir, sampleEntry]).length = 2 ∧
    (indextar sampleHash [sampleDir, sampleEntry]).getD 1 dEntry =
      { hdr := { sampleEntry.hdr with size := 20 },
        payload := sampleHash sampleEntry.payload } ∧
    (indextar sampleHash [sampleDir, sampleEntry]).getD 0 dEntry = sampleDir := by
  have hc := C4_index_transform sampleHash [sampleDir, sampleEntry] (by decide)
    (fun b => by simp [sampleHash])
  exact ⟨hc.1, ((hc.2 1 (by decide)).1 (by decide)).1, (hc.2 0 (by decide)).2 (by decide)⟩


/-! Local diff scanning (C5) -/

theorem scanGo_cons_nonreg (h : List Nat → List Nat) (fs : LocalFS) (ref : String)
    (e : Entry) (es : List Entry) (hr : ¬ isReg e = true) :
    scanGo h fs ref (e :: es) =
      match scanGo h fs ref es with
      | .ok (out, bits, m) =>
        .ok ({ e with payload := if 0 < e.hdr.size then e.payload else [] } :: out, bits, m)
      | .error msg => .error msg := by
  simp [scanGo, hr]

theorem scanGo_cons_badhash (h : List Nat → List Nat) (fs : LocalFS) (ref : String)
    (e : Entry) (es : List Entry) (hr : isReg e = true) (hp : e.payload.length < 20) :
    scanGo h fs ref (e :: es) =
      .error "Server responded with an unknown file hash format!" := by
  simp [scanGo, hr, hp]

theorem scanGo_cons_err (h : List Nat → List Nat) (fs : LocalFS) (ref : String)
    (e : Entry) (es : List Entry) (msg : String) (hr : isReg e = true)
    (hp : ¬ e.payload.length < 20) (hsl : scanLocal h fs ref e = .error msg) :
    scanGo h fs ref (e :: es) = .error msg := by
  simp [scanGo, hr, hp, hsl]

theorem scanGo_cons_missing (h : List Nat → List Nat) (fs : LocalFS) (ref : String)
    (e : Entry) (es : List Entry) (hr : isReg e = true) (hp : ¬ e.payload.length < 20)
    (hsl : scanLocal h fs ref e = .ok none) :
    scanGo h fs ref (e :: es) =
      match scanGo h fs ref es with
      | .ok (out, bits, m) => .ok (out, true :: bits, m + 1)
      | .error msg => .error msg := by
  simp [scanGo, hr, hp, hsl]

theorem scanGo_cons_sat (h : List Nat → List Nat) (fs : LocalFS) (ref : String)
    (e : Entry) (es : List Entry) (ne : Entry) (hr : isReg e = true)
    (hp : ¬ e.payload.length < 20) (hsl : scanLocal h fs ref e = .ok (some ne)) :
    scanGo h fs ref (e :: es) =
      match scanGo h fs ref es with
      | .ok (out, bits, m) => .ok (ne :: out, false :: bits, m)
      | .error msg => .error msg := by
  simp [scanGo, hr, hp, hsl]

theorem scanGo_append (h : List Nat → List Nat) (fs : LocalFS) (ref : String)
    (as bs : List Entry) :
    scanGo h fs ref (as ++ bs) =
      match scanGo h fs ref as, scanGo h fs ref bs with
      | .ok (o1, b1, m1), .ok (o2, b2, m2) => .ok (o1 ++ o2, b1 ++ b2, m1 + m2)
      | .error msg, _ => .error msg
      | .ok _, .error msg => .error msg := by
  induction as with
  | nil =>
    rw [List.nil_append]
    cases hbs : scanGo h fs ref bs with
    | ok r =>
      obtain ⟨o2, b2, m2⟩ := r
      simp [scanGo, hbs]
    | error msg => simp [scanGo, hbs]
  | cons e as ih =>
    rw [List.cons_append]
    by_cases hr : isReg e
    · by_cases hp : e.payload.length < 20
      · rw [scanGo_cons_badhash h fs ref e (as ++ bs) hr hp,
          scanGo_cons_badhash h fs ref e as hr hp]
      · cases hsl : scanLocal h fs ref e with
        | error msg =>
          rw [scanGo_cons_err h fs ref e (as ++ bs) msg hr hp hsl,
            scanGo_cons_err h fs ref e as msg hr hp hsl]
        | ok o =>
          cases o with
          | none =>
            rw [scanGo_cons_missing h fs ref e (as ++ bs) hr hp hsl,
              scanGo_cons_missing h fs ref e as hr hp hsl, ih]
            cases has : scanGo h fs ref as with
            | ok r1 =>
              obtain ⟨o1, b1, m1⟩ := r1
              cases hbs : scanGo h fs ref bs with
              | ok r2 =>
                obtain ⟨o2, b2, m2⟩ := r2
                simp [List.cons_append]
                omega
              | error msg => simp
            | error msg => simp
          | some ne =>
            rw [scanGo_cons_sat h fs ref e (as ++ bs) ne hr hp hsl,
              scanGo_cons_sat h fs ref e as ne hr hp hsl, ih]
            cases has : scanGo h fs ref as with
            | ok r1 =>
              obtain ⟨o1, b1, m1⟩ := r1
              cases hbs : scanGo h fs ref bs with
              | ok r2 =>
                obtain ⟨o2, b2, m2⟩ := r2
                simp [List.cons_append]
              | error msg => simp
            | error msg => simp
    · rw [scanGo_cons_nonreg h fs ref e (as ++ bs) hr,
        scanGo_cons_nonreg h fs ref e as hr, ih]
      cases has : scanGo h fs ref as with
      | ok r1 =>
        obtain ⟨o1, b1, m1⟩ := r1
        cases hbs : scanGo h fs ref bs with
        | ok r2 =>
          obtain ⟨o2, b2, m2⟩ := r2
          simp [List.cons_append]
        | error msg => simp
      | error msg => simp

theorem scanGo_bits_length (h : List Nat → List Nat) (fs : LocalFS) (ref : String) :
    ∀ es out bits m, scanGo h fs ref es = .ok (out, bits, m) →
      bits.length = countReg es := by
  intro es
  induction es with
  | nil =>
    intro out bits m hok
    simp only [scanGo, Except.ok.injEq, Prod.mk.injEq] at hok
    obtain ⟨h1, h2, h3⟩ := hok
    simp [← h2, countReg]
  | cons e es ih =>
    intro out bits m hok
    by_cases hr : isReg e
    · by_cases hp : e.payload.length < 20
      · rw [scanGo_cons_badhash h fs ref e es hr hp] at hok
        exact absurd hok (by simp)
      · cases hsl : scanLocal h fs ref e with
        | error msg =>
          rw [scanGo_cons_err h fs ref e es msg hr hp hsl] at hok
          exact absurd hok (by simp)
        | ok o =>
          cases o with
          | none =>
            rw [scanGo_cons_missing h fs ref e es hr hp hsl] at hok
            cases hes : scanGo h fs ref es with
            | ok r1 =>
              obtain ⟨o1, b1, m1⟩ := r1
              rw [hes] at hok
              simp only [Except.ok.injEq, Prod.mk.injEq] at hok
              rw [← hok.2.1, countReg_cons, if_pos hr]
              simp [ih o1 b1 m1 hes]
              omega
            | error msg =>
              rw [hes] at hok
              exact absurd hok (by simp)
          | some ne =>
            rw [scanGo_cons_sat h fs ref e es ne hr hp hsl] at hok
            cases hes : scanGo h fs ref es with
            | ok r1 =>
              obtain ⟨o1, b1, m1⟩ := r1
              rw [hes] at hok
              simp only [Except.ok.injEq, Prod.mk.injEq] at hok
              rw [← hok.2.1, countReg_cons, if_pos hr]
              simp [ih o1 b1 m1 hes]
              omega
            | error msg =>
              rw [hes] at hok
              exact absurd hok (by simp)
    · rw [scanGo_cons_nonreg h fs ref e es hr] at hok
      cases hes : scanGo h fs ref es with
      | ok r1 =>
        obtain ⟨o1, b1, m1⟩ := r1
        rw [hes] at hok
        simp only [Except.ok.injEq, Prod.mk.injEq] at hok
        rw [← hok.2.1, countReg_cons, if_neg hr]
        simp [ih o1 b1 m1 hes]
      | error msg =>
        rw [hes] at hok
        exact absurd hok (by simp)

theorem getD_append_length (l1 : List Bool) (x : Bool) (l2 : List Bool) :
    (l1 ++ x :: l2).getD l1.length true = x := by
  induction l1 with
  | nil => rfl
  | cons y t ih => simpa using ih

theorem scanLocal_satisfied (h : List Nat → List Nat) (fs : LocalFS) (ref : String)
    (e : Entry) (f : LocalFile) (hfs : fs (ref ++ e.hdr.name) = some f)
    (hreg : f.regular = true) (hst : f.statOk = true) (hho : f.hashOk = true)
    (heq : hexEncode (h f.content) = hexEncode (e.payload.take 20)) :
    scanLocal h fs ref e =
      .ok (some { hdr := { e.hdr with size := f.content.length },
                  payload := f.content }) := by
  simp [scanLocal, hfs, hreg, hst, hho, heq]


/-- C5: a regular-file index entry at counter value `c` (the `countReg pre`
regular files precede it) whose local candidate is located, stat-ed and hashed
successfully with the computed hash equal to the embedded one is appended to
the output archive with a header carrying the actual local file size (not the
index placeholder 20) followed by the local content; its bit `c` is recorded
as 0 and the missing-files count — the number of entries re-requested from the
server — is unchanged. -/
theorem C5_satisfied_entry (h : List Nat → List Nat) (fs : LocalFS) (ref : String)
    (pre post : List Entry) (e : Entry) (f : LocalFile)
    (o1 : List Entry) (b1 : List Bool) (m1 : Nat)
    (o2 : List Entry) (b2 : List Bool) (m2 : Nat)
    (hr : isReg e = true) (hp : 20 ≤ e.payload.length)
    (hfs : fs (ref ++ e.hdr.name) = some f)
    (hreg : f.regular = true) (hst : f.statOk = true) (hho : f.hashOk = true)
    (heq : h f.content = e.payload.take 20)
    (h1 : scanGo h fs ref pre = .ok (o1, b1, m1))
    (h2 : scanGo h fs ref post = .ok (o2, b2, m2)) :
    scanGo h fs ref (pre ++ e :: post) =
      .ok (o1 ++ ({ hdr := { e.hdr with size := f.content.length },
                    payload := f.content } :: o2),
           b1 ++ false :: b2, m1 + m2) ∧
    (b1 ++ false :: b2).getD (countReg pre) true = false := by
  have hstep : scanGo h fs ref (e :: post) =
      .ok ({ hdr := { e.hdr with size := f.content.length },
             payload := f.content } :: o2, false :: b2, m2) := by
    rw [scanGo_cons_sat h fs ref e post _ hr (by omega)
      (scanLocal_satisfied h fs ref e f hfs hreg hst hho (by rw [heq])), h2]
  have happ := scanGo_append h fs ref pre (e :: post)
  rw [h1, hstep] at happ
  constructor
  · exact happ
  · have hb1 : b1.length = countReg pre := scanGo_bits_length h fs ref pre o1 b1 m1 h1
    rw [← hb1]
    exact getD_append_length b1 false b2

/-- Witness for C5: a directory followed by a satisfied regular file; the
emitted header carries the local size 4 instead of the placeholder 20. -/
theorem C5_satisfied_entry_witness :
    scanGo sampleHash sampleFS "/" [sampleDir, indexEntry20] =
      .ok ([sampleDir,
            { hdr := { indexEntry20.hdr with size := 4 }, payload := [65, 65, 65, 65] }],
           [false], 0) ∧
    ([false] : List Bool).getD (countReg [sampleDir]) true = false :=
  C5_satisfied_entry sampleHash sampleFS "/" [sampleDir] [] indexEntry20 sampleFile
    [sampleDir] [] 0 [] [] 0 (by decide) (by decide) rfl rfl rfl rfl (by decide) rfl rfl

end OtaImage
